import Mathlib

/-!
Verification development for the NDJSON-to-CSV flattening pipeline
(`MIMIC_import/import gzip_optimized.py` and `MIMIC_import/import gzip.py`).

The Python sources are shallowly embedded as executable Lean definitions:

* JSON values are the tagged variant `JVal` over leaf values `Scalar`
  (JSON numbers are carried as integers; no claim here depends on float
  semantics).
* Python dicts produced by the flatteners are modelled as the list of
  key/value writes in the order the code performs them; dict lookup
  (last write wins) is `recordLookup`.
* The line source is a list: each element is either a line that parses
  to a `JVal`, a line that fails JSON parsing (`none`), or — where the
  claim is about I/O failure — an `ioError` event that aborts the read.
* Python's `sorted` over a `set` of strings is modelled as a sort of the
  deduplicated key list under the code-point lexicographic order, which
  is the order Python uses on `str`.
-/

/-- JSON leaf values (string, number, boolean, null). -/
inductive Scalar where
  | null
  | bool (b : Bool)
  | num (n : Int)
  | str (s : String)
deriving DecidableEq, Repr

/-- Parsed JSON values: scalars, arrays, objects (fields in document order,
as `json.loads` preserves insertion order of a Python dict). -/
inductive JVal where
  | scalar (s : Scalar)
  | arr (elems : List JVal)
  | obj (fields : List (String × JVal))
deriving Repr

mutual
/-- Structural size of a JSON value (termination measure for the worklist). -/
def jsize : JVal → Nat
  | .scalar _ => 1
  | .obj fields => 1 + fsize fields
  | .arr elems => 1 + esize elems

/-- Structural size of an object's field list. -/
def fsize : List (String × JVal) → Nat
  | [] => 0
  | (_, v) :: rest => 1 + jsize v + fsize rest

/-- Structural size of an array's element list. -/
def esize : List JVal → Nat
  | [] => 0
  | v :: rest => 1 + jsize v + esize rest
end

/-- Little-endian decimal digit characters of `n` (with `fuel ≥ n` as
structural fuel so that the definition reduces by `decide`). -/
def decDigitsAux : Nat → Nat → List Char
  | 0, _ => []
  | _, 0 => []
  | fuel + 1, n + 1 => Nat.digitChar ((n + 1) % 10) :: decDigitsAux fuel ((n + 1) / 10)

/-- Python's `str(n)` for a natural number: standard decimal notation. -/
def natRepr (n : Nat) : String :=
  if n = 0 then "0" else String.mk (decDigitsAux n n).reverse

/-- Reconstruct the number from its little-endian digit characters
(used to prove `natRepr` injective). -/
def unDigits : List Char → Nat
  | [] => 0
  | c :: rest => (c.toNat - 48) + 10 * unDigits rest

/-- Key joining of `flatten_dict`/`flatten_dict_iterative`: Python's
`f"{parent}{sep}{k}" if parent else k` with the fixed separator `"_"`. -/
def joinKey (parent k : String) : String :=
  if parent = "" then k else parent ++ "_" ++ k

mutual
/-- One object layer of the recursive flattener `flatten_dict`
(`import gzip.py`): leaves are recorded in place, containers recurse
depth-first, in field order. -/
def flattenFields : List (String × JVal) → String → List (String × Scalar)
  | [], _ => []
  | (k, .scalar s) :: rest, parent =>
      (joinKey parent k, s) :: flattenFields rest parent
  | (k, .obj fs) :: rest, parent =>
      flattenFields fs (joinKey parent k) ++ flattenFields rest parent
  | (k, .arr es) :: rest, parent =>
      flattenElems es 1 (joinKey parent k) ++ flattenFields rest parent
termination_by l _ => fsize l
decreasing_by
  all_goals simp [fsize, esize, jsize]
  all_goals omega

/-- One array layer of the recursive flattener: elements are numbered
from 1 (`enumerate(d, start=1)`), the index is appended like a key. -/
def flattenElems : List JVal → Nat → String → List (String × Scalar)
  | [], _, _ => []
  | .scalar s :: rest, i, parent =>
      (joinKey parent (natRepr i), s) :: flattenElems rest (i + 1) parent
  | .obj fs :: rest, i, parent =>
      flattenFields fs (joinKey parent (natRepr i)) ++ flattenElems rest (i + 1) parent
  | .arr es :: rest, i, parent =>
      flattenElems es 1 (joinKey parent (natRepr i)) ++ flattenElems rest (i + 1) parent
termination_by l _ _ => esize l
decreasing_by
  all_goals simp [fsize, esize, jsize]
  all_goals omega
end

/-- Recursive flattener `flatten_dict` of `import gzip.py`: a dict or list
is traversed; any other (scalar) input yields the empty mapping, because
the Python function has no branch for it. The returned list is the
sequence of dict writes in the order Python performs them. -/
def flatten_dict (d : JVal) (parent_key : String) : List (String × Scalar) :=
  match d with
  | .scalar _ => []
  | .obj fields => flattenFields fields parent_key
  | .arr elems => flattenElems elems 1 parent_key

/-- One popped dict of the worklist flattener: leaves become writes, nested
containers become queued children, in field order. -/
def processFields (key : String) : List (String × JVal) → List (String × Scalar) × List (JVal × String)
  | [] => ([], [])
  | (k, .scalar s) :: rest =>
      let r := processFields key rest
      ((joinKey key k, s) :: r.1, r.2)
  | (k, .obj fs) :: rest =>
      let r := processFields key rest
      (r.1, (JVal.obj fs, joinKey key k) :: r.2)
  | (k, .arr es) :: rest =>
      let r := processFields key rest
      (r.1, (JVal.arr es, joinKey key k) :: r.2)

/-- One popped list of the worklist flattener, elements numbered from `i`. -/
def processElems (key : String) : Nat → List JVal → List (String × Scalar) × List (JVal × String)
  | _, [] => ([], [])
  | i, .scalar s :: rest =>
      let r := processElems key (i + 1) rest
      ((joinKey key (natRepr i), s) :: r.1, r.2)
  | i, .obj fs :: rest =>
      let r := processElems key (i + 1) rest
      (r.1, (JVal.obj fs, joinKey key (natRepr i)) :: r.2)
  | i, .arr es :: rest =>
      let r := processElems key (i + 1) rest
      (r.1, (JVal.arr es, joinKey key (natRepr i)) :: r.2)

/-- Processing of one popped worklist entry of `flatten_dict_iterative`:
a dict or list contributes writes and children; anything else is ignored
(the loop writes nothing for a bare scalar entry). -/
def processItem : JVal → String → List (String × Scalar) × List (JVal × String)
  | .scalar _, _ => ([], [])
  | .obj fields, key => processFields key fields
  | .arr elems, key => processElems key 1 elems

/-- Total size of the values still on the worklist. -/
def queueMeasure (q : List (JVal × String)) : Nat :=
  (q.map (fun p => jsize p.1)).sum

/-- The FIFO worklist loop of `flatten_dict_iterative`: pop from the left,
append children on the right (`deque.append` / `popleft`). -/
def flattenLoop : List (JVal × String) → List (String × Scalar)
  | [] => []
  | (v, key) :: rest =>
      (processItem v key).1 ++ flattenLoop (rest ++ (processItem v key).2)
termination_by q => queueMeasure q
decreasing_by
  have hf : ∀ (key2 : String) (fields : List (String × JVal)),
      queueMeasure (processFields key2 fields).2 ≤ fsize fields := by
    intro key2 fields
    induction fields with
    | nil => simp [processFields, queueMeasure]
    | cons p prest ih =>
        obtain ⟨k, w⟩ := p
        cases w <;> simp [processFields, queueMeasure, jsize, fsize] at ih ⊢ <;> omega
  have he : ∀ (key2 : String) (i : Nat) (elems : List JVal),
      queueMeasure (processElems key2 i elems).2 ≤ esize elems := by
    intro key2 i elems
    induction elems generalizing i with
    | nil => simp [processElems, queueMeasure]
    | cons w prest ih =>
        cases w <;> simp [processElems, queueMeasure, jsize, esize] at ih ⊢ <;>
          (have h2 := ih (i + 1); omega)
  have hqapp : ∀ (a b : List (JVal × String)),
      queueMeasure (a ++ b) = queueMeasure a + queueMeasure b := by
    intro a b; simp [queueMeasure]
  rw [hqapp]
  have hq : queueMeasure ((v, key) :: rest) = jsize v + queueMeasure rest := by
    simp [queueMeasure]
  rw [hq]
  cases v with
  | scalar s => simp [processItem, queueMeasure, jsize]
  | obj fields =>
      have h := hf key fields
      simp only [processItem, jsize]
      omega
  | arr elems =>
      have h := he key 1 elems
      simp only [processItem, jsize]
      omega

/-- `flatten_dict_iterative` of `import gzip_optimized.py`: the stack starts
with the input value and the parent key; the result list is the sequence of
dict writes in breadth-first pop order. -/
def flatten_dict_iterative (obj : JVal) (parent_key : String) : List (String × Scalar) :=
  flattenLoop [(obj, parent_key)]

/-- Concatenation of the recursive flattenings of the entries of a worklist
(specification-side companion used to relate the two flatteners). -/
def flatRec : List (JVal × String) → List (String × Scalar)
  | [] => []
  | (v, k) :: rest => flatten_dict v k ++ flatRec rest

/-- Booleans: does the pattern start the string? (helper for `str.replace`). -/
def leadsWith : List Char → List Char → Bool
  | [], _ => true
  | _ :: _, [] => false
  | p :: ps, c :: cs => p = c && leadsWith ps cs

/-- Python `str.replace`: left-to-right, non-overlapping replacement of every
occurrence of `pat` by `repl` (fuel = remaining length, consumed one per step). -/
def replaceFuel (pat repl : List Char) : Nat → List Char → List Char
  | _, [] => []
  | 0, s => s
  | fuel + 1, c :: rest =>
      if pat ≠ [] ∧ leadsWith pat (c :: rest) then
        repl ++ replaceFuel pat repl fuel (List.drop (pat.length - 1) rest)
      else
        c :: replaceFuel pat repl fuel rest

/-- Python `s.replace(pat, repl)` on char lists. -/
def replaceList (pat repl s : List Char) : List Char :=
  replaceFuel pat repl s.length s

/-- The regex `_(\d+) → \1`: drop every underscore that is directly followed
by a digit (the digit run itself is copied unchanged). -/
def stripUnd : List Char → List Char
  | [] => []
  | '_' :: c :: rest =>
      if c.isDigit then c :: stripUnd rest else '_' :: stripUnd (c :: rest)
  | c :: rest => c :: stripUnd rest

/-- `transform_col_name` of `import gzip_optimized.py`: literal substring
replacement of `_extension_` by `_ext_`, then of `_communication_` by
`_comm_`, then the digit-strip regex. (The memoisation cache of the Python
code does not change the function's value.) -/
def transform_col_name (name : String) : String :=
  String.mk (stripUnd
    (replaceList "_communication_".data "_comm_".data
      (replaceList "_extension_".data "_ext_".data name.data)))

/-- Python `name.split('_')` (keeps empty tokens). -/
def splitUnd : List Char → List (List Char)
  | [] => [[]]
  | '_' :: rest => [] :: splitUnd rest
  | c :: rest =>
      match splitUnd rest with
      | t :: ts => (c :: t) :: ts
      | [] => [[c]]

namespace Legacy

/-- `transform_col_name` of `import gzip.py`: split on `_`, map the whole
tokens `extension → ext` and `communication → comm`, re-join with `_`,
then the digit-strip regex. -/
def transform_col_name (name : String) : String :=
  let tokens := splitUnd name.data
  let mapped := tokens.map (fun t =>
    if t = "extension".data then "ext".data
    else if t = "communication".data then "comm".data
    else t)
  String.mk (stripUnd (List.intercalate ['_'] mapped))

end Legacy

/-- The suffixing step of the deduplicators: a first occurrence is emitted
unchanged, a later occurrence with `c` earlier occurrences is emitted as
`name__{c+1}`. -/
def emitName (n : String) (c : Nat) : String :=
  if c = 0 then n else n ++ "__" ++ natRepr (c + 1)

/-- The loop of `dedupe_column_names_optimized` with the running occurrence
counter (`defaultdict(int)`) made explicit. -/
def dedupeGo (counts : String → Nat) : List String → List String
  | [] => []
  | n :: rest =>
      emitName n (counts n) ::
      dedupeGo (fun m => if m = n then counts n + 1 else counts m) rest

/-- `dedupe_column_names_optimized` of `import gzip_optimized.py`
(identical in behaviour to `dedupe_column_names` of `import gzip.py`):
per-invocation counter keyed by name, starting at zero. -/
def dedupe_column_names_optimized (names : List String) : List String :=
  dedupeGo (fun _ => 0) names

/-- Does the char list contain two adjacent underscores? -/
def hasDD : List Char → Bool
  | [] => false
  | [_] => false
  | a :: b :: rest => (a == '_' && b == '_') || hasDD (b :: rest)

/-- Python's `<` on strings: lexicographic comparison by code point. -/
def strLtB : List Char → List Char → Bool
  | [], [] => false
  | [], _ :: _ => true
  | _ :: _, [] => false
  | a :: as, b :: bs =>
      if a.toNat < b.toNat then true
      else if b.toNat < a.toNat then false
      else strLtB as bs

/-- The `a ≤ b` order `sorted` sorts by. -/
def strLe (a b : String) : Prop := strLtB b.data a.data = false

instance : DecidableRel strLe := fun a b => by unfold strLe; infer_instance

/-- Python's `sorted` on a list of strings: the ascending reordering under
the code-point lexicographic order (any correct sort produces it). -/
def sortStrings (l : List String) : List String :=
  List.insertionSort strLe l

/-- One element of the sampled line stream: a line that parses (or not),
or an I/O failure raised by the underlying reader. -/
inductive LineEvent where
  | line (parsed : Option JVal)
  | ioError

/-- Python `set.add`: membership-based insertion (the concrete order of a
Python set is immaterial, since the set is only ever sorted; we keep
first-insertion order). -/
def setInsert (acc : List String) (k : String) : List String :=
  if k ∈ acc then acc else acc ++ [k]

/-- Python `set.update(keys)`. -/
def setUnion (acc : List String) (ks : List String) : List String :=
  ks.foldl setInsert acc

/-- The flattened column names of one record (`flat_record.keys()`). -/
def recordKeys (v : JVal) : List String :=
  (flatten_dict_iterative v "").map Prod.fst

/-- The sampling loop of `collect_all_columns`: stop once `sample_size`
records have been processed; a malformed line is skipped and does not
count; any reader exception aborts the loop, keeping what was collected. -/
def collectLoop : List LineEvent → Nat → List String → List String
  | [], _, acc => acc
  | _ :: _, 0, acc => acc
  | .ioError :: _, _ + 1, acc => acc
  | .line none :: rest, r + 1, acc => collectLoop rest (r + 1) acc
  | .line (some v) :: rest, r + 1, acc => collectLoop rest r (setUnion acc (recordKeys v))

/-- `collect_all_columns` of `import gzip_optimized.py`: sample, sort the
collected raw key set, transform each name, then dedupe. -/
def collect_all_columns (events : List LineEvent) (sample_size : Nat) : List String :=
  dedupe_column_names_optimized
    ((sortStrings (collectLoop events sample_size [])).map transform_col_name)

/-- The records the sampler processes: the first `cap` successfully parsed
lines, stopping early at an I/O failure (specification-side companion of
`collectLoop`, used to state theorems about it). -/
def sampleRecords : List LineEvent → Nat → List JVal
  | [], _ => []
  | _ :: _, 0 => []
  | .ioError :: _, _ + 1 => []
  | .line none :: rest, r + 1 => sampleRecords rest (r + 1)
  | .line (some v) :: rest, r + 1 => v :: sampleRecords rest r

/-- All flattened keys of the sampled records, in sample order. -/
def sampleKeys (events : List LineEvent) (cap : Nat) : List String :=
  ((sampleRecords events cap).map recordKeys).flatten

/-- Modelled from the words of claim C2 (not from the code): the
Deduplicator applied to the lexicographically sorted sequence of the
distinct transformed column names of the sampled records. -/
def claimedSchemaC2 (events : List LineEvent) (cap : Nat) : List String :=
  dedupe_column_names_optimized
    (sortStrings (((sampleKeys events cap).map transform_col_name).dedup))

/-- Python dict lookup on the write sequence of a flattened record:
the last write to a key wins; a key never written is absent. -/
def recordLookup : List (String × Scalar) → String → Option Scalar
  | [], _ => none
  | p :: rest, k =>
      match recordLookup rest k with
      | some v => some v
      | none => if p.1 = k then some p.2 else none

/-- Reconciliation of one record against the schema, as performed by
building the batch DataFrame, filling missing schema columns with `None`
and reindexing to `column_order`: one cell per schema column, in schema
order; a record key outside the schema is dropped. `none` is the absent
marker (pandas `None`/empty CSV cell). -/
def buildRow (schema : List String) (rec : List (String × Scalar)) : List (Option Scalar) :=
  schema.map (recordLookup rec)

/-- One row of the produced CSV file. -/
inductive CsvRow where
  | header (cols : List String)
  | data (cells : List (Option Scalar))
deriving DecidableEq, Repr

/-- One flush of the batch writer (`df.to_csv(..., header=first_chunk)`):
the header row exactly when this is the file's first flush, then one data
row per batched record, in batch order. -/
def flushRows (schema : List String) (first : Bool) (batch : List (List (String × Scalar))) : List CsvRow :=
  (if first then [CsvRow.header schema] else []) ++
    batch.map (fun r => CsvRow.data (buildRow schema r))

/-- The main loop of `ndjson_to_csv_flat_optimized` over the line stream:
parse, flatten, batch; flush once the batch reaches `chunk_size`; a line
failing JSON parse is skipped (counted in the second component, one
warning per skipped line); the remaining partial batch is flushed at
end of stream. Returns the CSV rows in file order and the skip count. -/
def driveLoop (schema : List String) (chunk_size : Nat) :
    List (Option JVal) → List (List (String × Scalar)) → Bool → List CsvRow × Nat
  | [], batch, first =>
      if batch = [] then ([], 0) else (flushRows schema first batch, 0)
  | none :: rest, batch, first =>
      let r := driveLoop schema chunk_size rest batch first
      (r.1, r.2 + 1)
  | some v :: rest, batch, first =>
      let batch2 := batch ++ [flatten_dict_iterative v ""]
      if chunk_size ≤ batch2.length then
        let r := driveLoop schema chunk_size rest [] false
        (flushRows schema first batch2 ++ r.1, r.2)
      else
        driveLoop schema chunk_size rest batch2 first

/-- `ndjson_to_csv_flat_optimized` of `import gzip_optimized.py` for one
input file: fix the schema by sampling (cap 1000), then stream all lines
through parse → flatten → batch → flush. -/
def ndjson_to_csv_flat_optimized (lines : List (Option JVal)) (chunk_size : Nat) : List CsvRow × Nat :=
  driveLoop (collect_all_columns (lines.map LineEvent.line) 1000) chunk_size lines [] true

instance decidableNilEq {α : Type} (l : List α) : Decidable (l = []) :=
  match l with
  | [] => isTrue rfl
  | _ :: _ => isFalse (by simp)

/-- The successfully parsed records of the stream, in order. -/
def validRecords (lines : List (Option JVal)) : List JVal :=
  lines.filterMap id

/-- The number of lines of the stream that fail JSON parsing. -/
def countSkips (lines : List (Option JVal)) : Nat :=
  lines.countP (fun o => o.isNone)

/-- Is a CSV row a header row? -/
def isHeaderRow : CsvRow → Bool
  | .header _ => true
  | .data _ => false

/-! ## Decimal representation -/

theorem digitChar_toNat : ∀ d, d < 10 → (Nat.digitChar d).toNat = 48 + d := by decide

theorem digitChar_isDigit : ∀ d, d < 10 → (Nat.digitChar d).isDigit = true := by decide

theorem unDigits_decDigitsAux : ∀ fuel n, n ≤ fuel → unDigits (decDigitsAux fuel n) = n := by
  intro fuel
  induction fuel with
  | zero =>
      intro n h
      have : n = 0 := by omega
      subst this
      rfl
  | succ f ih =>
      intro n h
      cases n with
      | zero => rfl
      | succ m =>
          have h10 : (m + 1) / 10 ≤ f := by
            have := Nat.div_lt_self (Nat.succ_pos m) (by norm_num : 1 < 10)
            omega
          simp only [decDigitsAux, unDigits]
          rw [ih _ h10]
          rw [digitChar_toNat _ (Nat.mod_lt _ (by norm_num))]
          omega

theorem natRepr_inj (m n : Nat) (hm : 0 < m) (hn : 0 < n) (h : natRepr m = natRepr n) : m = n := by
  unfold natRepr at h
  rw [if_neg (by omega), if_neg (by omega)] at h
  have hdata : (decDigitsAux m m).reverse = (decDigitsAux n n).reverse :=
    congrArg String.data h
  have heq : decDigitsAux m m = decDigitsAux n n := by
    have h2 := congrArg List.reverse hdata
    simpa using h2
  have h1 := unDigits_decDigitsAux m m (le_refl m)
  have h2 := unDigits_decDigitsAux n n (le_refl n)
  rw [← h1, ← h2, heq]

theorem decDigitsAux_digits : ∀ fuel n c, c ∈ decDigitsAux fuel n → c.isDigit = true := by
  intro fuel
  induction fuel with
  | zero => intro n c hc; simp [decDigitsAux] at hc
  | succ f ih =>
      intro n c hc
      cases n with
      | zero => simp [decDigitsAux] at hc
      | succ m =>
          simp only [decDigitsAux, List.mem_cons] at hc
          rcases hc with rfl | hc
          · exact digitChar_isDigit _ (Nat.mod_lt _ (by norm_num))
          · exact ih _ _ hc

theorem natRepr_digits (n : Nat) (hn : 0 < n) : ∀ c ∈ (natRepr n).data, c.isDigit = true := by
  unfold natRepr
  rw [if_neg (by omega)]
  intro c hc
  have hc2 : c ∈ (decDigitsAux n n).reverse := hc
  exact decDigitsAux_digits _ _ _ (by simpa using hc2)

/-! ## Strings: adjacent double underscores, append facts -/

theorem hasDD_tail (c : Char) (l : List Char) (h : hasDD (c :: l) = false) : hasDD l = false := by
  cases l with
  | nil => rfl
  | cons d l2 =>
      simp only [hasDD, Bool.or_eq_false_iff] at h
      exact h.2

theorem hasDD_append_dd (x y : List Char) : hasDD (x ++ '_' :: '_' :: y) = true := by
  induction x with
  | nil => simp [hasDD]
  | cons c x2 ih =>
      cases hx : x2 ++ '_' :: '_' :: y with
      | nil => simp at hx
      | cons d rest =>
          have : hasDD (c :: x2 ++ '_' :: '_' :: y) = ((c == '_' && d == '_') || hasDD (d :: rest)) := by
            rw [List.cons_append, hx, hasDD]
          rw [List.cons_append] at this ⊢
          rw [this, ← hx, ih, Bool.or_true]

theorem str_ext (a b : String) (h : a.data = b.data) : a = b := by
  cases a
  cases b
  simp only at h
  exact congrArg String.mk h

theorem append_dd_inj : ∀ (a b t u : List Char),
    a ++ '_' :: '_' :: t = b ++ '_' :: '_' :: u →
    hasDD a = false → hasDD b = false →
    (∀ c ∈ t, c.isDigit = true) → (∀ c ∈ u, c.isDigit = true) →
    a = b ∧ t = u := by
  intro a
  induction a with
  | nil =>
      intro b t u heq ha hb ht hu
      cases b with
      | nil =>
          simp only [List.nil_append, List.cons.injEq, true_and] at heq
          exact ⟨rfl, heq⟩
      | cons c b2 =>
          simp only [List.nil_append, List.cons_append, List.cons.injEq] at heq
          obtain ⟨hc, heq2⟩ := heq
          cases b2 with
          | nil =>
              simp only [List.nil_append, List.cons.injEq] at heq2
              obtain ⟨-, ht2⟩ := heq2
              have := ht '_' (by rw [ht2]; exact List.mem_cons_self _ _)
              simp [Char.isDigit] at this
          | cons c2 b3 =>
              simp only [List.cons_append, List.cons.injEq] at heq2
              obtain ⟨hc2, -⟩ := heq2
              subst hc
              subst hc2
              rw [show ('_' :: '_' :: b3 : List Char) = [] ++ '_' :: '_' :: b3 from rfl,
                hasDD_append_dd] at hb
              exact absurd hb (by simp)
  | cons c a2 ih =>
      intro b t u heq ha hb ht hu
      cases b with
      | nil =>
          simp only [List.nil_append, List.cons_append, List.cons.injEq] at heq
          obtain ⟨hc, heq2⟩ := heq
          cases a2 with
          | nil =>
              simp only [List.nil_append, List.cons.injEq] at heq2
              obtain ⟨-, hu2⟩ := heq2
              have := hu '_' (by rw [← hu2]; exact List.mem_cons_self _ _)
              simp [Char.isDigit] at this
          | cons c2 a3 =>
              simp only [List.cons_append, List.cons.injEq] at heq2
              obtain ⟨hc2, -⟩ := heq2
              subst hc
              subst hc2
              rw [show ('_' :: '_' :: a3 : List Char) = [] ++ '_' :: '_' :: a3 from rfl,
                hasDD_append_dd] at ha
              exact absurd ha (by simp)
      | cons d b2 =>
          simp only [List.cons_append, List.cons.injEq] at heq
          obtain ⟨hcd, heq2⟩ := heq
          have := ih b2 t u heq2 (hasDD_tail _ _ ha) (hasDD_tail _ _ hb) ht hu
          exact ⟨by rw [hcd, this.1], this.2⟩

/-! ## The deduplicator -/

theorem emit_data_pos (n : String) (c : Nat) (hc : 0 < c) :
    (emitName n c).data = n.data ++ '_' :: '_' :: (natRepr (c + 1)).data := by
  unfold emitName
  rw [if_neg (by omega)]
  rw [String.data_append, String.data_append]
  simp

theorem emitName_inj (n m : String) (cn cm : Nat)
    (hn : hasDD n.data = false) (hm : hasDD m.data = false)
    (h : emitName n cn = emitName m cm) : n = m ∧ cn = cm := by
  rcases Nat.eq_zero_or_pos cn with hcn | hcn <;>
    rcases Nat.eq_zero_or_pos cm with hcm | hcm
  · subst hcn; subst hcm
    refine ⟨?_, rfl⟩
    simpa [emitName] using h
  · subst hcn
    have hdata := congrArg String.data h
    have hd0 : (emitName n 0).data = n.data := by simp [emitName]
    rw [hd0, emit_data_pos m cm hcm] at hdata
    rw [hdata] at hn
    simp [hasDD_append_dd] at hn
  · subst hcm
    have hdata := congrArg String.data h
    have hd0 : (emitName m 0).data = m.data := by simp [emitName]
    rw [hd0, emit_data_pos n cn hcn] at hdata
    rw [← hdata] at hm
    simp [hasDD_append_dd] at hm
  · have hdata := congrArg String.data h
    rw [emit_data_pos n cn hcn, emit_data_pos m cm hcm] at hdata
    have hinj := append_dd_inj n.data m.data (natRepr (cn + 1)).data (natRepr (cm + 1)).data
      hdata hn hm (natRepr_digits _ (by omega)) (natRepr_digits _ (by omega))
    refine ⟨str_ext _ _ hinj.1, ?_⟩
    have : natRepr (cn + 1) = natRepr (cm + 1) := str_ext _ _ hinj.2
    have := natRepr_inj (cn + 1) (cm + 1) (by omega) (by omega) this
    omega

theorem mem_dedupeGo : ∀ (l : List String) (counts : String → Nat) (x : String),
    x ∈ dedupeGo counts l → ∃ m c, m ∈ l ∧ counts m ≤ c ∧ x = emitName m c := by
  intro l
  induction l with
  | nil => intro counts x hx; simp [dedupeGo] at hx
  | cons n rest ih =>
      intro counts x hx
      simp only [dedupeGo, List.mem_cons] at hx
      rcases hx with rfl | hx
      · exact ⟨n, counts n, List.mem_cons_self _ _, le_refl _, rfl⟩
      · obtain ⟨m, c, hm, hc, rfl⟩ := ih _ _ hx
        refine ⟨m, c, List.mem_cons_of_mem _ hm, ?_, rfl⟩
        by_cases hmn : m = n
        · subst hmn; simp at hc; omega
        · simpa [hmn] using hc

theorem dedupeGo_nodup : ∀ (l : List String) (counts : String → Nat),
    (∀ n ∈ l, hasDD n.data = false) → (dedupeGo counts l).Nodup := by
  intro l
  induction l with
  | nil => intro counts h; simp [dedupeGo]
  | cons n rest ih =>
      intro counts h
      rw [dedupeGo, List.nodup_cons]
      constructor
      · intro hmem
        obtain ⟨m, c, hm, hc, heq⟩ := mem_dedupeGo _ _ _ hmem
        have hinj := emitName_inj n m (counts n) c
          (h n (List.mem_cons_self _ _)) (h m (List.mem_cons_of_mem _ hm)) heq
        obtain ⟨rfl, rfl⟩ := hinj
        simp at hc
      · exact ih _ (fun x hx => h x (List.mem_cons_of_mem _ hx))

theorem dedupeGo_length : ∀ (l : List String) (counts : String → Nat),
    (dedupeGo counts l).length = l.length := by
  intro l
  induction l with
  | nil => intro counts; rfl
  | cons n rest ih => intro counts; simp [dedupeGo, ih]

theorem dedupeGo_get : ∀ (l : List String) (counts : String → Nat) (i : Nat)
    (h : i < l.length) (h2 : i < (dedupeGo counts l).length),
    (dedupeGo counts l)[i] =
      emitName l[i] (counts l[i] + (l.take i).count l[i]) := by
  intro l
  induction l with
  | nil => intro counts i h h2; simp at h
  | cons n rest ih =>
      intro counts i h h2
      cases i with
      | zero => simp [dedupeGo]
      | succ j =>
          have hj : j < rest.length := by simpa using h
          have hj2 : j < (dedupeGo (fun m => if m = n then counts n + 1 else counts m) rest).length := by
            rw [dedupeGo_length]; exact hj
          have hstep : (dedupeGo counts (n :: rest))[j + 1] =
              (dedupeGo (fun m => if m = n then counts n + 1 else counts m) rest)[j] := by
            simp [dedupeGo]
          rw [hstep, ih _ j hj hj2]
          have hget : (n :: rest)[j + 1] = rest[j] := by simp
          rw [hget]
          congr 1
          by_cases hmn : rest[j] = n
          · simp only [hmn, if_pos rfl, List.take_succ_cons, List.count_cons,
              beq_self_eq_true, if_true]
            omega
          · simp [List.take_succ_cons, List.count_cons, hmn, Ne.symm hmn]

/-! ## Claims C4, C5, C6 -/

/-- Claim C4, counterexample: the optimized Name Transformer
(`transform_col_name` in `import gzip_optimized.py`) maps the flattened key
`extension_1_url` to `extension1_url`, not to `ext1_url` as the claim
states — the literal substring `_extension_` does not occur in
`extension_1_url` (there is no underscore before `extension`), so only the
digit-strip rule fires. -/
theorem claim_C4_cex :
    transform_col_name "extension_1_url" = "extension1_url" ∧
    transform_col_name "extension_1_url" ≠ "ext1_url" := by decide

/-- Claim C4, amended: flattening the record
`{"id":"p1","name":[{"family":"Doe"}],"extension":[{"url":"x"}]}` produces
the keys `id`, `name_1_family`, `extension_1_url`; on `extension_1_url`
the optimized literal-substring transformer returns `extension1_url`
(the `_extension_` rule cannot fire at the start of the string), while the
token-based legacy transformer of `import gzip.py` returns `ext1_url`;
on a key where the literal rule does fire, e.g. `name_1_extension_2_url`,
the optimized transformer rewrites it to `name1_ext2_url`. -/
theorem claim_C4_amended :
    ((flatten_dict_iterative (JVal.obj
        [("id", .scalar (.str "p1")),
         ("name", .arr [.obj [("family", .scalar (.str "Doe"))]]),
         ("extension", .arr [.obj [("url", .scalar (.str "x"))]])]) "").map Prod.fst =
      ["id", "name_1_family", "extension_1_url"]) ∧
    transform_col_name "extension_1_url" = "extension1_url" ∧
    Legacy.transform_col_name "extension_1_url" = "ext1_url" ∧
    transform_col_name "name_1_extension_2_url" = "name1_ext2_url" := by
  refine ⟨?_, by decide, by decide, by decide⟩
  simp [flatten_dict_iterative, flattenLoop, processItem, processFields, processElems,
    joinKey, natRepr, decDigitsAux]
  decide

/-- Claim C5, counterexample: on the input `[x, x, x__2]` — explicitly
included in the claim — the Deduplicator emits `[x, x__2, x__2]`, which
contains the name `x__2` twice, so the output is not duplicate-free. -/
theorem claim_C5_cex :
    dedupe_column_names_optimized ["x", "x", "x__2"] = ["x", "x__2", "x__2"] ∧
    ¬ (dedupe_column_names_optimized ["x", "x", "x__2"]).Nodup := by decide

/-- Claim C5, amended: the output of the Deduplicator
(`dedupe_column_names_optimized`) contains no duplicates for every input
in which no name contains two adjacent underscores; inputs that already
contain suffixed names such as `[x, x, x__2]` are excluded (on those the
property fails, see the counterexample). -/
theorem claim_C5 (names : List String)
    (h : ∀ n ∈ names, hasDD n.data = false) :
    (dedupe_column_names_optimized names).Nodup :=
  dedupeGo_nodup names (fun _ => 0) h

/-- Witness for C5 at the concrete input `[x, x, x]`. -/
theorem claim_C5_witness : (dedupe_column_names_optimized ["x", "x", "x"]).Nodup :=
  claim_C5 ["x", "x", "x"] (by decide)

/-- Claim C6: the Deduplicator's output has the same length as the input
and is positionally determined: the entry at index `i` is the input name
at index `i`, unchanged when no earlier position holds the same name, and
suffixed `name__N` when it is the `N`-th occurrence (`N = c + 1 ≥ 2`,
where `c` counts earlier occurrences); in particular `[x, x, x]` dedupes
to `[x, x__2, x__3]`. -/
theorem claim_C6 (names : List String) (i : Nat) (h : i < names.length) :
    (dedupe_column_names_optimized names).length = names.length ∧
    (∀ h2 : i < (dedupe_column_names_optimized names).length,
      (dedupe_column_names_optimized names)[i] =
        emitName names[i] ((names.take i).count names[i])) ∧
    dedupe_column_names_optimized ["x", "x", "x"] = ["x", "x__2", "x__3"] := by
  refine ⟨dedupeGo_length _ _, fun h2 => ?_, by decide⟩
  have hg := dedupeGo_get names (fun _ => 0) i h h2
  simpa using hg

/-- Witness for C6 at the concrete input `[x, x, x]`, index 1. -/
theorem claim_C6_witness :
    (dedupe_column_names_optimized ["x", "x", "x"]).length = 3 ∧
    (dedupe_column_names_optimized ["x", "x", "x"])[1] =
      emitName "x" (1 : Nat) := by
  have hc := claim_C6 ["x", "x", "x"] 1 (by decide)
  refine ⟨by simpa using hc.1, ?_⟩
  have h2 := hc.2.1 (by decide)
  simpa using h2

/-! ## The two flatteners: permutation equivalence -/

theorem flatRec_append : ∀ (a b : List (JVal × String)),
    flatRec (a ++ b) = flatRec a ++ flatRec b := by
  intro a b
  induction a with
  | nil => rfl
  | cons p rest ih =>
      obtain ⟨v, k⟩ := p
      simp [flatRec, ih]

theorem perm_shuffle {α : Type} (a F x y : List α) (h : (a ++ x).Perm y) :
    (a ++ (F ++ x)).Perm (F ++ y) := by
  have h1 : a ++ (F ++ x) = (a ++ F) ++ x := by rw [List.append_assoc]
  have h2 : ((a ++ F) ++ x).Perm ((F ++ a) ++ x) :=
    List.Perm.append_right _ List.perm_append_comm
  have h3 : (F ++ a) ++ x = F ++ (a ++ x) := by rw [List.append_assoc]
  have h4 : (F ++ (a ++ x)).Perm (F ++ y) := List.Perm.append_left _ h
  rw [h1]
  refine h2.trans ?_
  rw [h3]
  exact h4

theorem perm_child (r1 : List (String × Scalar)) (r2 : List (JVal × String))
    (w : JVal) (jk : String) (tail : List (String × Scalar))
    (ih : (r1 ++ flatRec r2).Perm tail) :
    (r1 ++ flatRec ((w, jk) :: r2)).Perm (flatten_dict w jk ++ tail) := by
  rw [show flatRec ((w, jk) :: r2) = flatten_dict w jk ++ flatRec r2 from rfl]
  exact perm_shuffle _ _ _ _ ih

theorem processFields_perm : ∀ (fields : List (String × JVal)) (key : String),
    ((processFields key fields).1 ++ flatRec (processFields key fields).2).Perm
      (flattenFields fields key) := by
  intro fields
  induction fields with
  | nil => intro key; simp [processFields, flatRec, flattenFields]
  | cons p rest ih =>
      intro key
      obtain ⟨k, v⟩ := p
      cases v with
      | scalar s =>
          simp only [processFields, flattenFields]
          exact (ih key).cons _
      | obj fs =>
          simp only [processFields, flattenFields]
          exact perm_child _ _ (JVal.obj fs) (joinKey key k) _ (ih key)
      | arr es =>
          simp only [processFields, flattenFields]
          exact perm_child _ _ (JVal.arr es) (joinKey key k) _ (ih key)

theorem processElems_perm : ∀ (elems : List JVal) (key : String) (i : Nat),
    ((processElems key i elems).1 ++ flatRec (processElems key i elems).2).Perm
      (flattenElems elems i key) := by
  intro elems
  induction elems with
  | nil => intro key i; simp [processElems, flatRec, flattenElems]
  | cons v rest ih =>
      intro key i
      cases v with
      | scalar s =>
          simp only [processElems, flattenElems]
          exact (ih key (i + 1)).cons _
      | obj fs =>
          simp only [processElems, flattenElems]
          exact perm_child _ _ (JVal.obj fs) (joinKey key (natRepr i)) _ (ih key (i + 1))
      | arr es =>
          simp only [processElems, flattenElems]
          exact perm_child _ _ (JVal.arr es) (joinKey key (natRepr i)) _ (ih key (i + 1))

theorem processItem_perm (v : JVal) (key : String) :
    ((processItem v key).1 ++ flatRec (processItem v key).2).Perm (flatten_dict v key) := by
  cases v with
  | scalar s => simp [processItem, flatRec, flatten_dict]
  | obj fields =>
      have h := processFields_perm fields key
      simpa [processItem, flatten_dict] using h
  | arr elems =>
      have h := processElems_perm elems key 1
      simpa [processItem, flatten_dict] using h

theorem flattenLoop_perm : ∀ q : List (JVal × String), (flattenLoop q).Perm (flatRec q) := by
  intro q
  induction q using flattenLoop.induct with
  | case1 => simp [flattenLoop, flatRec]
  | case2 v key rest ih =>
      rw [flattenLoop]
      have h1 : ((processItem v key).1 ++ flattenLoop (rest ++ (processItem v key).2)).Perm
          ((processItem v key).1 ++ flatRec (rest ++ (processItem v key).2)) :=
        List.Perm.append_left _ ih
      rw [flatRec_append] at h1
      have h2 : ((processItem v key).1 ++ (flatRec rest ++ flatRec (processItem v key).2)).Perm
          (((processItem v key).1 ++ flatRec (processItem v key).2) ++ flatRec rest) := by
        have ha : ((processItem v key).1 ++ (flatRec rest ++ flatRec (processItem v key).2)).Perm
            ((processItem v key).1 ++ (flatRec (processItem v key).2 ++ flatRec rest)) :=
          List.Perm.append_left _ List.perm_append_comm
        have hb : (processItem v key).1 ++ (flatRec (processItem v key).2 ++ flatRec rest) =
            ((processItem v key).1 ++ flatRec (processItem v key).2) ++ flatRec rest := by
          rw [List.append_assoc]
        rw [hb] at ha
        exact ha
      have h3 : (((processItem v key).1 ++ flatRec (processItem v key).2) ++ flatRec rest).Perm
          (flatten_dict v key ++ flatRec rest) :=
        List.Perm.append_right _ (processItem_perm v key)
      exact (h1.trans h2).trans h3

/-! ## Python dict lookup on the write sequence -/

theorem recordLookup_eq_none : ∀ (l : List (String × Scalar)) (k : String),
    recordLookup l k = none ↔ k ∉ l.map Prod.fst := by
  intro l k
  induction l with
  | nil => simp [recordLookup]
  | cons p rest ih =>
      obtain ⟨k1, v1⟩ := p
      cases hr : recordLookup rest k with
      | some v =>
          have hk : k ∈ rest.map Prod.fst := by
            by_contra hnk
            have h2 := ih.mpr hnk
            rw [h2] at hr
            exact absurd hr (by simp)
          simp [recordLookup, hr, hk]
      | none =>
          have hk := ih.mp hr
          by_cases he : k1 = k
          · simp [recordLookup, hr, he]
          · simp [recordLookup, hr, he, hk, Ne.symm he]

theorem recordLookup_some : ∀ (l : List (String × Scalar)),
    (l.map Prod.fst).Nodup →
    ∀ (k : String) (x : Scalar), (recordLookup l k = some x ↔ (k, x) ∈ l) := by
  intro l
  induction l with
  | nil => intro _ k x; simp [recordLookup]
  | cons p rest ih =>
      intro hnd k x
      obtain ⟨k1, v1⟩ := p
      simp only [List.map_cons, List.nodup_cons] at hnd
      obtain ⟨hk1, hnd2⟩ := hnd
      by_cases he : k = k1
      · subst he
        have hnone : recordLookup rest k = none := (recordLookup_eq_none rest k).mpr hk1
        simp only [recordLookup, hnone, List.mem_cons]
        simp only [if_true]
        constructor
        · intro h
          injection h with h2
          exact Or.inl (by rw [← h2])
        · rintro (h | h)
          · injection h with h2 h3
            rw [h3]
          · exact absurd (List.mem_map_of_mem Prod.fst h) hk1
      · simp only [recordLookup, List.mem_cons]
        cases hr : recordLookup rest k with
        | some v =>
            show some v = some x ↔ ((k, x) = (k1, v1) ∨ (k, x) ∈ rest)
            have hiff := ih hnd2 k x
            rw [hr] at hiff
            constructor
            · intro h
              exact Or.inr (hiff.mp h)
            · rintro (h | h)
              · injection h with h2 h3
                exact absurd h2 he
              · exact hiff.mpr h
        | none =>
            show (if k1 = k then some v1 else none) = some x ↔ ((k, x) = (k1, v1) ∨ (k, x) ∈ rest)
            rw [if_neg (fun h2 => he h2.symm)]
            constructor
            · intro h
              exact absurd h (by simp)
            · rintro (h | h)
              · injection h with h2 h3
                exact absurd h2 he
              · have h2 := (ih hnd2 k x).mpr h
                rw [hr] at h2
                exact absurd h2 (by simp)

theorem recordLookup_perm (l1 l2 : List (String × Scalar)) (h : l1.Perm l2)
    (hnd : (l1.map Prod.fst).Nodup) (k : String) :
    recordLookup l1 k = recordLookup l2 k := by
  have hnd2 : (l2.map Prod.fst).Nodup := ((h.map Prod.fst).nodup_iff).mp hnd
  cases hx : recordLookup l1 k with
  | none =>
      have h1 := (recordLookup_eq_none l1 k).mp hx
      have h2 : k ∉ l2.map Prod.fst := fun hk => h1 (((h.map Prod.fst).mem_iff).mpr hk)
      exact ((recordLookup_eq_none l2 k).mpr h2).symm
  | some x =>
      have hm := (recordLookup_some l1 hnd k x).mp hx
      have hm2 : (k, x) ∈ l2 := h.subset hm
      exact ((recordLookup_some l2 hnd2 k x).mpr hm2).symm

/-! ## Claims C3 and C7 -/

/-- Claim C3, counterexample: on the record
`{"a": {"b": 1}, "a_b": 2}` the flattened path of the nested leaf collides
with the top-level key `a_b`; the recursive flattener (depth-first) writes
the top-level value 2 last, while the worklist flattener (breadth-first)
writes the nested value 1 last, so the two path-to-value mappings differ
at the key `a_b`: the two embeddings are not equal as functions. -/
theorem claim_C3_cex :
    recordLookup (flatten_dict_iterative (JVal.obj
      [("a", .obj [("b", .scalar (.num 1))]), ("a_b", .scalar (.num 2))]) "") "a_b" =
      some (Scalar.num 1) ∧
    recordLookup (flatten_dict (JVal.obj
      [("a", .obj [("b", .scalar (.num 1))]), ("a_b", .scalar (.num 2))]) "") "a_b" =
      some (Scalar.num 2) := by
  constructor
  · simp only [flatten_dict_iterative]
    simp [flattenLoop, processItem, processFields, joinKey]
    decide
  · simp only [flatten_dict]
    simp [flattenFields, joinKey]
    decide

/-- Claim C3, amended: for every parsed JSON value and parent path the
worklist flattener returns a permutation of the entry list of the
recursive flattener (the same multiset of path/value writes), and the two
are equal as path-to-value mappings whenever the flattened paths are
duplicate-free; on colliding paths they may disagree (see the
counterexample). -/
theorem claim_C3 (v : JVal) (p : String) :
    (flatten_dict_iterative v p).Perm (flatten_dict v p) ∧
    (((flatten_dict v p).map Prod.fst).Nodup →
      ∀ k, recordLookup (flatten_dict_iterative v p) k = recordLookup (flatten_dict v p) k) := by
  have hperm : (flatten_dict_iterative v p).Perm (flatten_dict v p) := by
    have h := flattenLoop_perm [(v, p)]
    simpa [flatten_dict_iterative, flatRec] using h
  refine ⟨hperm, fun hnd k => ?_⟩
  have hnd1 : ((flatten_dict_iterative v p).map Prod.fst).Nodup :=
    ((hperm.map Prod.fst).nodup_iff).mpr hnd
  exact recordLookup_perm _ _ hperm hnd1 k

/-- Witness for C3 at the record `{"a": 1}` (collision-free paths). -/
theorem claim_C3_witness :
    recordLookup (flatten_dict_iterative (JVal.obj [("a", .scalar (.num 1))]) "") "a" =
      recordLookup (flatten_dict (JVal.obj [("a", .scalar (.num 1))]) "") "a" :=
  (claim_C3 (JVal.obj [("a", .scalar (.num 1))]) "").2
    (by simp [flatten_dict, flattenFields, joinKey]) "a"

/-- Claim C7, counterexample: both flatteners return the empty mapping on
a bare scalar (the Python functions have no branch for non-dict, non-list
input), not a single entry keyed by the parent path as the claim states. -/
theorem claim_C7_cex :
    flatten_dict_iterative (JVal.scalar (Scalar.str "v")) "" = [] ∧
    flatten_dict (JVal.scalar (Scalar.str "v")) "" = [] ∧
    flatten_dict_iterative (JVal.scalar (Scalar.str "v")) "" ≠ [("", Scalar.str "v")] := by
  refine ⟨?_, rfl, ?_⟩ <;> simp [flatten_dict_iterative, flattenLoop, processItem]

/-- Claim C7, amended: flattening a bare scalar yields the empty mapping
(zero entries), for every parent path and both flatteners; a scalar
reached as an object member or array element yields exactly one entry
whose key is the parent path extended by the member key or index and
whose value is the scalar itself. -/
theorem claim_C7 (s : Scalar) (parent : String) :
    flatten_dict (.scalar s) parent = [] ∧
    flatten_dict_iterative (.scalar s) parent = [] ∧
    ∀ k : String,
      flatten_dict (.obj [(k, .scalar s)]) parent = [(joinKey parent k, s)] ∧
      flatten_dict_iterative (.obj [(k, .scalar s)]) parent = [(joinKey parent k, s)] ∧
      flatten_dict (.arr [.scalar s]) parent = [(joinKey parent (natRepr 1), s)] ∧
      flatten_dict_iterative (.arr [.scalar s]) parent = [(joinKey parent (natRepr 1), s)] := by
  refine ⟨rfl, ?_, fun k => ⟨?_, ?_, ?_, ?_⟩⟩ <;>
    simp [flatten_dict, flatten_dict_iterative, flattenLoop, processItem, processFields,
      processElems, flattenFields, flattenElems]

/-! ## The code-point order and Python sorted -/

theorem strLtB_asymm : ∀ (a b : List Char), strLtB a b = true → strLtB b a = false := by
  intro a
  induction a with
  | nil =>
      intro b h
      cases b with
      | nil => simp [strLtB] at h
      | cons y ys => simp [strLtB]
  | cons x xs ih =>
      intro b h
      cases b with
      | nil => simp [strLtB] at h
      | cons y ys =>
          simp only [strLtB] at h ⊢
          by_cases h1 : x.toNat < y.toNat
          · rw [if_neg (by omega), if_pos h1]
          · rw [if_neg h1] at h
            by_cases h2 : y.toNat < x.toNat
            · rw [if_pos h2] at h
              exact absurd h (by simp)
            · rw [if_neg h2] at h
              rw [if_neg h2, if_neg h1]
              exact ih ys h

theorem strLtB_trans : ∀ (a b c : List Char),
    strLtB a b = true → strLtB b c = true → strLtB a c = true := by
  intro a
  induction a with
  | nil =>
      intro b c hab hbc
      cases b with
      | nil => simp [strLtB] at hab
      | cons y ys =>
          cases c with
          | nil => simp [strLtB] at hbc
          | cons z zs => simp [strLtB]
  | cons x xs ih =>
      intro b c hab hbc
      cases b with
      | nil => simp [strLtB] at hab
      | cons y ys =>
          cases c with
          | nil => simp [strLtB] at hbc
          | cons z zs =>
              simp only [strLtB] at hab hbc ⊢
              split_ifs at hab hbc ⊢ <;>
                first
                  | rfl
                  | omega
                  | (exact ih ys zs hab hbc)

theorem strLtB_conn : ∀ (a b : List Char),
    strLtB a b = false → strLtB b a = false → a = b := by
  intro a
  induction a with
  | nil =>
      intro b hab hba
      cases b with
      | nil => rfl
      | cons y ys => simp [strLtB] at hab
  | cons x xs ih =>
      intro b hab hba
      cases b with
      | nil => simp [strLtB] at hba
      | cons y ys =>
          simp only [strLtB] at hab hba
          split_ifs at hab hba with h1 h2
          have hn : x.toNat = y.toNat := by omega
          have hxy : x = y := Char.ext (UInt32.ext hn)
          rw [hxy, ih ys hab hba]

theorem sortStrings_sorted (l : List String) : List.Sorted strLe (sortStrings l) := by
  have htot : IsTotal String strLe := by
    constructor
    intro a b
    unfold strLe
    cases h : strLtB b.data a.data with
    | false => exact Or.inl rfl
    | true => exact Or.inr (strLtB_asymm _ _ h)
  have htr : IsTrans String strLe := by
    constructor
    intro a b c hab hbc
    unfold strLe at hab hbc ⊢
    cases h : strLtB c.data a.data with
    | false => rfl
    | true =>
        exfalso
        cases h2 : strLtB a.data b.data with
        | false =>
            have hd := strLtB_conn _ _ h2 hab
            rw [hd] at h
            rw [h] at hbc
            exact absurd hbc (by simp)
        | true =>
            have h3 := strLtB_trans _ _ _ h h2
            rw [h3] at hbc
            exact absurd hbc (by simp)
  exact @List.sorted_insertionSort String strLe _ htot htr l

theorem sortStrings_perm (l : List String) : (sortStrings l).Perm l :=
  List.perm_insertionSort strLe l

theorem sortStrings_eq (l1 l2 : List String) (h : l1.Perm l2) :
    sortStrings l1 = sortStrings l2 := by
  have hanti : IsAntisymm String strLe := by
    constructor
    intro a b hab hba
    unfold strLe at hab hba
    exact str_ext _ _ (strLtB_conn _ _ hba hab)
  have hp : (sortStrings l1).Perm (sortStrings l2) :=
    ((sortStrings_perm l1).trans h).trans (sortStrings_perm l2).symm
  exact @List.eq_of_perm_of_sorted String strLe hanti _ _ hp
    (sortStrings_sorted l1) (sortStrings_sorted l2)

/-! ## The sampler: set accumulation and the sampled key list -/

theorem setUnion_append (acc a b : List String) :
    setUnion (setUnion acc a) b = setUnion acc (a ++ b) := by
  simp [setUnion, List.foldl_append]

theorem mem_setUnion : ∀ (ks acc : List String) (x : String),
    x ∈ setUnion acc ks ↔ x ∈ acc ∨ x ∈ ks := by
  intro ks
  induction ks with
  | nil => intro acc x; simp [setUnion]
  | cons k rest ih =>
      intro acc x
      rw [show setUnion acc (k :: rest) = setUnion (setInsert acc k) rest from rfl, ih]
      by_cases hk : k ∈ acc
      · simp only [setInsert, if_pos hk, List.mem_cons]
        constructor
        · rintro (h | h)
          · exact Or.inl h
          · exact Or.inr (Or.inr h)
        · rintro (h | h | h)
          · exact Or.inl h
          · rw [h]; exact Or.inl hk
          · exact Or.inr h
      · simp only [setInsert, if_neg hk, List.mem_append, List.mem_cons,
          List.not_mem_nil, or_false]
        constructor
        · rintro ((h | h) | h)
          · exact Or.inl h
          · exact Or.inr (Or.inl h)
          · exact Or.inr (Or.inr h)
        · rintro (h | h | h)
          · exact Or.inl (Or.inl h)
          · exact Or.inl (Or.inr h)
          · exact Or.inr h

theorem setUnion_nodup : ∀ (ks acc : List String), acc.Nodup → (setUnion acc ks).Nodup := by
  intro ks
  induction ks with
  | nil => intro acc h; exact h
  | cons k rest ih =>
      intro acc h
      rw [show setUnion acc (k :: rest) = setUnion (setInsert acc k) rest from rfl]
      apply ih
      by_cases hk : k ∈ acc
      · simpa [setInsert, hk] using h
      · simp [setInsert, hk, List.nodup_append, h]

theorem collectLoop_eq_setUnion : ∀ (events : List LineEvent) (r : Nat) (acc : List String),
    collectLoop events r acc = setUnion acc (sampleKeys events r) := by
  intro events
  induction events with
  | nil =>
      intro r acc
      simp [collectLoop, sampleKeys, sampleRecords, setUnion]
  | cons e rest ih =>
      intro r acc
      cases r with
      | zero =>
          cases e <;> simp [collectLoop, sampleKeys, sampleRecords, setUnion]
      | succ r2 =>
          cases e with
          | ioError => simp [collectLoop, sampleKeys, sampleRecords, setUnion]
          | line o =>
              cases o with
              | none =>
                  rw [show collectLoop (LineEvent.line none :: rest) (r2 + 1) acc =
                    collectLoop rest (r2 + 1) acc from rfl, ih]
                  rw [show sampleKeys (LineEvent.line none :: rest) (r2 + 1) =
                    sampleKeys rest (r2 + 1) from rfl]
              | some v =>
                  rw [show collectLoop (LineEvent.line (some v) :: rest) (r2 + 1) acc =
                    collectLoop rest r2 (setUnion acc (recordKeys v)) from rfl, ih]
                  rw [setUnion_append]
                  rw [show sampleKeys (LineEvent.line (some v) :: rest) (r2 + 1) =
                    recordKeys v ++ sampleKeys rest r2 from by
                      simp [sampleKeys, sampleRecords]]

/-! ## Claims C2 and C10 -/

/-- Claim C2, counterexample: for the single sampled record
`{"a_1": 1, "a1": 2}` the code's schema is `[a1, a1__2]` — the raw key set
`{a_1, a1}` is sorted first and only then transformed, which keeps both
raw names and dedupes the collision — while the claim's formula (dedupe
over the lexicographically sorted distinct transformed names) gives
`[a1]`; the two disagree, even in length. -/
theorem claim_C2_cex :
    collect_all_columns [LineEvent.line (some (JVal.obj
      [("a_1", .scalar (.num 1)), ("a1", .scalar (.num 2))]))] 1000 = ["a1", "a1__2"] ∧
    claimedSchemaC2 [LineEvent.line (some (JVal.obj
      [("a_1", .scalar (.num 1)), ("a1", .scalar (.num 2))]))] 1000 = ["a1"] := by
  constructor <;>
    · simp [collect_all_columns, claimedSchemaC2, collectLoop, recordKeys, sampleKeys,
        sampleRecords, flatten_dict_iterative, flattenLoop, processItem, processFields,
        joinKey, setUnion, setInsert]
      decide

/-- Claim C2, amended: the ColumnSchema returned by `collect_all_columns`
equals the Deduplicator applied to the Name-Transformer images of the
lexicographically sorted sequence of the distinct RAW flattened column
names of the sampled records: the schema order is the code-point
lexicographic order of the raw (pre-transform) names, and distinctness is
taken before transformation, not after. -/
theorem claim_C2 (events : List LineEvent) (cap : Nat) :
    collect_all_columns events cap =
      dedupe_column_names_optimized
        ((sortStrings ((sampleKeys events cap).dedup)).map transform_col_name) := by
  unfold collect_all_columns
  rw [collectLoop_eq_setUnion]
  have hsort : sortStrings (setUnion [] (sampleKeys events cap)) =
      sortStrings ((sampleKeys events cap).dedup) := by
    apply sortStrings_eq
    have h1 : (setUnion [] (sampleKeys events cap)).Nodup := setUnion_nodup _ _ (by simp)
    have h2 : (sampleKeys events cap).dedup.Nodup := List.nodup_dedup _
    rw [List.perm_ext_iff_of_nodup h1 h2]
    intro a
    rw [mem_setUnion, List.mem_dedup]
    simp
  rw [hsort]

/-- Claim C10: the Schema Sampler never propagates a reader failure: an
`ioError` event anywhere in the line stream makes `collect_all_columns`
return exactly the schema computed from the events before the failure;
with the failure at the very start (or an empty stream) the schema is the
empty list. -/
theorem claim_C10 (pre rest : List LineEvent) (cap : Nat) :
    collect_all_columns (pre ++ LineEvent.ioError :: rest) cap = collect_all_columns pre cap ∧
    collect_all_columns (LineEvent.ioError :: rest) cap = [] ∧
    collect_all_columns ([] : List LineEvent) cap = [] := by
  have hloop : ∀ (p rs : List LineEvent) (r : Nat) (acc : List String),
      collectLoop (p ++ LineEvent.ioError :: rs) r acc = collectLoop p r acc := by
    intro p
    induction p with
    | nil =>
        intro rs r acc
        cases r with
        | zero => rfl
        | succ r2 => rfl
    | cons e p2 ih =>
        intro rs r acc
        cases e with
        | ioError =>
            cases r with
            | zero => rfl
            | succ r2 => rfl
        | line o =>
            cases o with
            | none =>
                cases r with
                | zero => rfl
                | succ r2 => exact ih rs (r2 + 1) acc
            | some v =>
                cases r with
                | zero => rfl
                | succ r2 => exact ih rs r2 (setUnion acc (recordKeys v))
  refine ⟨?_, ?_, rfl⟩
  · unfold collect_all_columns
    rw [hloop]
  · unfold collect_all_columns
    rw [show (LineEvent.ioError :: rest : List LineEvent) =
      [] ++ LineEvent.ioError :: rest from rfl, hloop]
    rfl

/-! ## The batching driver -/

theorem flatten_single (k : String) (s : Scalar) :
    flatten_dict_iterative (JVal.obj [(k, .scalar s)]) "" = [(k, s)] := by
  simp [flatten_dict_iterative, flattenLoop, processItem, processFields, joinKey]

theorem flushRows_append (schema : List String) (first : Bool)
    (a b : List (List (String × Scalar))) :
    flushRows schema first (a ++ b) = flushRows schema first a ++ flushRows schema false b := by
  simp [flushRows]

theorem driveLoop_spec (schema : List String) (chunk : Nat) :
    ∀ (lines : List (Option JVal)) (batch : List (List (String × Scalar))) (first : Bool),
      driveLoop schema chunk lines batch first =
        (if batch ++ (validRecords lines).map (fun v => flatten_dict_iterative v "") = []
            then ([] : List CsvRow)
            else flushRows schema first
              (batch ++ (validRecords lines).map (fun v => flatten_dict_iterative v "")),
         countSkips lines) := by
  intro lines
  induction lines with
  | nil =>
      intro batch first
      simp only [driveLoop, validRecords, countSkips, List.filterMap_nil, List.map_nil,
        List.append_nil, List.countP_nil]
      by_cases hb : batch = [] <;> simp [hb]
  | cons o rest ih =>
      intro batch first
      cases o with
      | none =>
          simp only [driveLoop]
          rw [ih batch first]
          have hval0 : validRecords (none :: rest) = validRecords rest := by
            simp [validRecords]
          have hskip0 : countSkips (none :: rest) = countSkips rest + 1 := by
            simp [countSkips, List.countP_cons]
          rw [hval0, hskip0]
      | some v =>
          simp only [driveLoop]
          have hval : validRecords (some v :: rest) = v :: validRecords rest := by
            simp [validRecords]
          have hskip : countSkips (some v :: rest) = countSkips rest := by
            simp [countSkips]
          by_cases hc : chunk ≤ (batch ++ [flatten_dict_iterative v ""]).length
          · rw [if_pos hc, ih [] false]
            rw [hval, hskip]
            simp only [List.nil_append, List.map_cons, Prod.mk.injEq]
            refine ⟨?_, trivial⟩
            rw [if_neg (show ¬(batch ++ flatten_dict_iterative v "" ::
              (validRecords rest).map (fun v => flatten_dict_iterative v "") = []) by simp)]
            by_cases hmr : (validRecords rest).map (fun v => flatten_dict_iterative v "") = []
            · rw [if_pos hmr, hmr]
              simp
            · rw [if_neg hmr]
              have hsplit : batch ++ flatten_dict_iterative v "" ::
                  (validRecords rest).map (fun v => flatten_dict_iterative v "") =
                  (batch ++ [flatten_dict_iterative v ""]) ++
                    (validRecords rest).map (fun v => flatten_dict_iterative v "") := by
                simp
              rw [hsplit]
              conv_rhs => rw [flushRows_append]
          · rw [if_neg hc, ih (batch ++ [flatten_dict_iterative v ""]) first]
            rw [hval, hskip]
            simp only [List.map_cons]
            have hsplit : (batch ++ [flatten_dict_iterative v ""]) ++
                (validRecords rest).map (fun v => flatten_dict_iterative v "") =
                batch ++ flatten_dict_iterative v "" ::
                  (validRecords rest).map (fun v => flatten_dict_iterative v "") := by
              simp
            rw [hsplit]

theorem ndjson_output_shape (lines : List (Option JVal)) (chunk_size : Nat) :
    (ndjson_to_csv_flat_optimized lines chunk_size).1 =
      (if validRecords lines = [] then ([] : List CsvRow)
       else CsvRow.header (collect_all_columns (lines.map LineEvent.line) 1000) ::
         (validRecords lines).map (fun v =>
           CsvRow.data (buildRow (collect_all_columns (lines.map LineEvent.line) 1000)
             (flatten_dict_iterative v "")))) ∧
    (ndjson_to_csv_flat_optimized lines chunk_size).2 = countSkips lines := by
  rw [ndjson_to_csv_flat_optimized, driveLoop_spec]
  constructor
  · simp only [List.nil_append]
    by_cases hv : validRecords lines = []
    · simp [hv]
    · rw [if_neg (by simp [hv]), if_neg hv]
      simp [flushRows, List.map_map, Function.comp]
  · rfl

/-! ## Claims C1, C8, C9 -/

/-- Claim C1: every data row emitted by the optimized pipeline is the
schema-order reconciliation of one successfully parsed record: the row has
exactly one cell per column of the sampled ColumnSchema, in schema order
(`buildRow` maps the schema over the record), so every schema column
missing from the record appears as the absent marker `none`, every record
key outside the schema contributes no cell, and the row has exactly as
many fields as the header. -/
theorem claim_C1 (lines : List (Option JVal)) (chunk_size : Nat) (cells : List (Option Scalar))
    (h : CsvRow.data cells ∈ (ndjson_to_csv_flat_optimized lines chunk_size).1) :
    cells.length = (collect_all_columns (lines.map LineEvent.line) 1000).length ∧
    ∃ v, some v ∈ lines ∧
      cells = buildRow (collect_all_columns (lines.map LineEvent.line) 1000)
        (flatten_dict_iterative v "") := by
  rw [(ndjson_output_shape lines chunk_size).1] at h
  by_cases hv : validRecords lines = []
  · rw [if_pos hv] at h
    simp at h
  · rw [if_neg hv] at h
    simp only [List.mem_cons, List.mem_map] at h
    rcases h with h | h
    · exact absurd h (by simp)
    · obtain ⟨v, hv2, heq⟩ := h
      have hcell : buildRow (collect_all_columns (lines.map LineEvent.line) 1000)
          (flatten_dict_iterative v "") = cells := by
        injection heq
      refine ⟨?_, v, ?_, ?_⟩
      · rw [← hcell]
        simp [buildRow]
      · simp only [validRecords, List.mem_filterMap, id_eq] at hv2
        obtain ⟨o, ho, he⟩ := hv2
        rw [he] at ho
        exact ho
      · exact hcell.symm

/-- Witness for C1: the single record `{"a": 1}` with batch size 2
produces one data row `[some 1]` of the same width as the header. -/
theorem claim_C1_witness :
    ([some (Scalar.num 1)] : List (Option Scalar)).length =
      (collect_all_columns ([some (JVal.obj [("a", .scalar (.num 1))])].map LineEvent.line)
        1000).length ∧
    ∃ v, some v ∈ [some (JVal.obj [("a", .scalar (.num 1))])] ∧
      ([some (Scalar.num 1)] : List (Option Scalar)) =
        buildRow (collect_all_columns ([some (JVal.obj [("a", .scalar (.num 1))])].map
          LineEvent.line) 1000) (flatten_dict_iterative v "") :=
  claim_C1 [some (JVal.obj [("a", .scalar (.num 1))])] 2 [some (Scalar.num 1)] (by
    rw [(ndjson_output_shape [some (JVal.obj [("a", .scalar (.num 1))])] 2).1]
    have hs : collect_all_columns ([some (JVal.obj [("a", .scalar (.num 1))])].map
        LineEvent.line) 1000 = ["a"] := by
      simp [collect_all_columns, collectLoop, recordKeys, flatten_single, setUnion, setInsert]
      all_goals decide
    rw [hs]
    simp [validRecords, flatten_single, buildRow, recordLookup])

/-- Claim C8, amended: the CSV content of the optimized pipeline is fully
characterized: when no line parses, nothing at all is written (no header
row either — this is where the original claim fails, see the
counterexample); otherwise the output is exactly one header row first,
followed by one data row per parsed record in input order, independently
of the batch size; in particular 5 records with batch size 2 give one
header and 5 data rows in order, with no repeated header. -/
theorem claim_C8 (lines : List (Option JVal)) (chunk_size : Nat) :
    ((ndjson_to_csv_flat_optimized lines chunk_size).1 =
      if validRecords lines = [] then ([] : List CsvRow)
      else CsvRow.header (collect_all_columns (lines.map LineEvent.line) 1000) ::
        (validRecords lines).map (fun v =>
          CsvRow.data (buildRow (collect_all_columns (lines.map LineEvent.line) 1000)
            (flatten_dict_iterative v "")))) ∧
    (ndjson_to_csv_flat_optimized
        [some (JVal.obj [("a", .scalar (.num 1))]),
         some (JVal.obj [("a", .scalar (.num 2))]),
         some (JVal.obj [("a", .scalar (.num 3))]),
         some (JVal.obj [("a", .scalar (.num 4))]),
         some (JVal.obj [("a", .scalar (.num 5))])] 2).1 =
      [CsvRow.header ["a"],
       CsvRow.data [some (Scalar.num 1)],
       CsvRow.data [some (Scalar.num 2)],
       CsvRow.data [some (Scalar.num 3)],
       CsvRow.data [some (Scalar.num 4)],
       CsvRow.data [some (Scalar.num 5)]] := by
  refine ⟨(ndjson_output_shape lines chunk_size).1, ?_⟩
  rw [(ndjson_output_shape
    [some (JVal.obj [("a", .scalar (.num 1))]),
     some (JVal.obj [("a", .scalar (.num 2))]),
     some (JVal.obj [("a", .scalar (.num 3))]),
     some (JVal.obj [("a", .scalar (.num 4))]),
     some (JVal.obj [("a", .scalar (.num 5))])] 2).1]
  have hs : collect_all_columns ([some (JVal.obj [("a", .scalar (.num 1))]),
      some (JVal.obj [("a", .scalar (.num 2))]),
      some (JVal.obj [("a", .scalar (.num 3))]),
      some (JVal.obj [("a", .scalar (.num 4))]),
      some (JVal.obj [("a", .scalar (.num 5))])].map LineEvent.line) 1000 = ["a"] := by
    simp [collect_all_columns, collectLoop, recordKeys, flatten_single, setUnion, setInsert]
    all_goals decide
  rw [hs]
  simp [validRecords, flatten_single, buildRow, recordLookup]

/-- Claim C8, counterexample: on an empty input stream (zero parseable
records) the pipeline emits nothing at all — zero header rows — so the
header is not emitted exactly once for every input stream. -/
theorem claim_C8_cex :
    (ndjson_to_csv_flat_optimized ([] : List (Option JVal)) 2).1 = [] ∧
    ((ndjson_to_csv_flat_optimized ([] : List (Option JVal)) 2).1.countP
      (fun r => isHeaderRow r)) = 0 := by
  constructor <;> rfl

/-- Claim C9: a line that fails JSON parsing never aborts the run and
contributes no data row — the pipeline emits exactly one data row per
successfully parsed line, in order, and reports one skip warning per
failed line (the returned skip count equals the number of unparseable
lines); in particular 3 valid lines and 1 invalid line give exactly 3
data rows and a skip count of 1. -/
theorem claim_C9 (lines : List (Option JVal)) (chunk_size : Nat) :
    (ndjson_to_csv_flat_optimized lines chunk_size).2 = countSkips lines ∧
    ((ndjson_to_csv_flat_optimized lines chunk_size).1.countP
      (fun r => !(isHeaderRow r))) = (validRecords lines).length ∧
    ((ndjson_to_csv_flat_optimized
        [some (JVal.obj [("a", .scalar (.num 1))]), none,
         some (JVal.obj [("a", .scalar (.num 2))]),
         some (JVal.obj [("a", .scalar (.num 3))])] 5).1.countP
      (fun r => !(isHeaderRow r))) = 3 ∧
    (ndjson_to_csv_flat_optimized
        [some (JVal.obj [("a", .scalar (.num 1))]), none,
         some (JVal.obj [("a", .scalar (.num 2))]),
         some (JVal.obj [("a", .scalar (.num 3))])] 5).2 = 1 := by
  have hcount : ∀ (L : List (Option JVal)) (c : Nat),
      ((ndjson_to_csv_flat_optimized L c).1.countP (fun r => !(isHeaderRow r))) =
        (validRecords L).length := by
    intro L c
    rw [(ndjson_output_shape L c).1]
    by_cases hv : validRecords L = []
    · simp [hv]
    · rw [if_neg hv]
      simp [List.countP_cons, isHeaderRow, List.countP_map, Function.comp]
  refine ⟨(ndjson_output_shape lines chunk_size).2, hcount lines chunk_size, ?_, ?_⟩
  · rw [hcount]
    simp [validRecords]
  · rw [(ndjson_output_shape
      [some (JVal.obj [("a", .scalar (.num 1))]), none,
       some (JVal.obj [("a", .scalar (.num 2))]),
       some (JVal.obj [("a", .scalar (.num 3))])] 5).2]
    simp [countSkips, List.countP_cons]
